import Mathlib

/-!
Verification development for the constant-value evaluator of a Go enum code
generator (package `generator`).  The definitions below are a shallow
embedding of the Go source: each Lean definition mirrors the Go function of
the same name.  Go `int` values are modelled as unbounded `Int` (no claim
under consideration depends on 64-bit wraparound); Go integer division
truncates toward zero and is therefore modelled with `Int.tdiv`.  Go strings
are byte slices, so the result of unquoting a character literal is modelled
as a list of bytes (`List Nat`), which lets the embedding reproduce the
invalid-UTF-8 behaviour of literals such as backslash-x-80.
-/

namespace EnumGen

set_option maxRecDepth 10000

/-- Character constants used throughout (written via `Char.ofNat` to keep
the source free of quote-escape literals): the single quote, the backslash
and the newline character. -/
def quoteCh : Char := Char.ofNat 39

def backslashCh : Char := Char.ofNat 92

def newlineCh : Char := Char.ofNat 10

/-- The subset of `go/token.Token` the evaluator inspects: the four binary
operators it supports plus a stand-in for every other token (the `default`
branches of the Go switches). -/
inductive GoToken where
  | add
  | sub
  | mul
  | quo
  | otherTok
  deriving DecidableEq

/-- The literal kinds `ConvertLiteralToInt` distinguishes: `token.INT`,
`token.CHAR`, and every other kind (its `default` branch). -/
inductive LitKind where
  | int
  | char
  | otherKind
  deriving DecidableEq

/-- `ast.BasicLit`: a literal token with its kind and raw source text. -/
structure BasicLit where
  kind : LitKind
  value : String
  deriving DecidableEq

/-- The `ast.Expr` shapes the walker inspects: identifiers, basic literals,
binary expressions, unary expressions, and a stand-in for every other node
kind (function literals, calls, parenthesised expressions, ...). -/
inductive Expr where
  | identE (name : String)
  | basicLitE (lit : BasicLit)
  | binaryE (x : Expr) (op : GoToken) (y : Expr)
  | unaryE (op : GoToken) (x : Expr)
  | otherE
  deriving DecidableEq

/-- Errors of `ConvertLiteralToInt`, one constructor per `fmt.Errorf` site. -/
inductive ConvError where
  | cannotConvertInt (text : String)
  | cannotParseChar (text : String)
  | invalidUTF8 (text : String)
  | multipleChars (text : String)
  | unsupportedLitKind
  deriving DecidableEq

/-- Errors of `EvaluateBinaryExpr`, one constructor per error site; literal
conversion failures are propagated via `convErr`. -/
inductive EvalError where
  | convErr (e : ConvError)
  | unsupportedIdent (name : String)
  | unsupportedOperandType
  | divisionByZero
  | unsupportedOperator
  deriving DecidableEq

/-- Errors surfaced by `Parse` (the I/O error of `parser.ParseDir` is out of
scope): the no-const-values-found error. -/
inductive GenError where
  | noEntriesFound (typ : String)
  deriving DecidableEq

instance {ε α : Type _} [DecidableEq ε] [DecidableEq α] : DecidableEq (Except ε α)
  | .ok a, .ok b => if h : a = b then .isTrue (by rw [h]) else .isFalse (by simp [h])
  | .ok _, .error _ => .isFalse (by simp)
  | .error _, .ok _ => .isFalse (by simp)
  | .error e, .error f => if h : e = f then .isTrue (by rw [h]) else .isFalse (by simp [h])

/-! ### Byte-level string plumbing

`strconv.Unquote` and `utf8.DecodeRuneInString` from the Go standard
library, modelled at the byte level. -/

/-- Hexadecimal digit value of a character, if any. -/
def hexDigitVal (c : Char) : Option Nat :=
  if 48 ≤ c.toNat ∧ c.toNat ≤ 57 then some (c.toNat - 48)
  else if 97 ≤ c.toNat ∧ c.toNat ≤ 102 then some (c.toNat - 87)
  else if 65 ≤ c.toNat ∧ c.toNat ≤ 70 then some (c.toNat - 55)
  else none

/-- Octal digit value of a character, if any. -/
def octDigitVal (c : Char) : Option Nat :=
  if 48 ≤ c.toNat ∧ c.toNat ≤ 55 then some (c.toNat - 48) else none

/-- UTF-8 encoding of a code point as a byte list. -/
def utf8Encode (v : Nat) : List Nat :=
  if v < 0x80 then [v]
  else if v < 0x800 then [0xC0 + v / 64, 0x80 + v % 64]
  else if v < 0x10000 then [0xE0 + v / 4096, 0x80 + v / 64 % 64, 0x80 + v % 64]
  else [0xF0 + v / 262144, 0x80 + v / 4096 % 64, 0x80 + v / 64 % 64, 0x80 + v % 64]

/-- The Unicode replacement character `utf8.RuneError`. -/
def runeError : Nat := 0xFFFD

/-- Whether a byte is a UTF-8 continuation byte. -/
def isContByte (b : Nat) : Prop := 0x80 ≤ b ∧ b < 0xC0

instance (b : Nat) : Decidable (isContByte b) := And.decidable

/-- `utf8.DecodeRuneInString` on a byte list: first rune and its byte size.
Returns `(RuneError, 0)` on empty input and `(RuneError, 1)` on malformed,
overlong, surrogate, or out-of-range encodings, exactly as the Go accept
ranges do. -/
def decodeRune : List Nat → Nat × Nat
  | [] => (runeError, 0)
  | b0 :: rest =>
    if b0 < 0x80 then (b0, 1)
    else if b0 < 0xC2 then (runeError, 1)
    else if b0 < 0xE0 then
      match rest with
      | b1 :: _ =>
        if isContByte b1 then ((b0 - 0xC0) * 64 + (b1 - 0x80), 2) else (runeError, 1)
      | _ => (runeError, 1)
    else if b0 < 0xF0 then
      match rest with
      | b1 :: b2 :: _ =>
        if isContByte b1 ∧ isContByte b2 then
          let v := (b0 - 0xE0) * 4096 + (b1 - 0x80) * 64 + (b2 - 0x80)
          if v < 0x800 ∨ (0xD800 ≤ v ∧ v < 0xE000) then (runeError, 1) else (v, 3)
        else (runeError, 1)
      | _ => (runeError, 1)
    else if b0 < 0xF5 then
      match rest with
      | b1 :: b2 :: b3 :: _ =>
        if isContByte b1 ∧ isContByte b2 ∧ isContByte b3 then
          let v := (b0 - 0xF0) * 262144 + (b1 - 0x80) * 4096 + (b2 - 0x80) * 64 + (b3 - 0x80)
          if v < 0x10000 ∨ 0x10FFFF < v then (runeError, 1) else (v, 4)
        else (runeError, 1)
      | _ => (runeError, 1)
    else (runeError, 1)

/-- Take `n` hexadecimal digits off the front of a character list,
accumulating their value. -/
def takeHexDigits : Nat → Nat → List Char → Option (Nat × List Char)
  | 0, acc, cs => some (acc, cs)
  | _ + 1, _, [] => none
  | n + 1, acc, c :: cs =>
    match hexDigitVal c with
    | some d => takeHexDigits n (acc * 16 + d) cs
    | none => none

/-- `strconv.unquoteChar` with quote character the single quote: consumes
one character token (raw character or escape sequence) from the content of
a quoted literal and yields the bytes it contributes plus the remaining
content.  Escapes for a single byte (hex and octal) contribute that raw
byte; all other tokens contribute the UTF-8 encoding of their code point. -/
def unquoteChar : List Char → Option (List Nat × List Char)
  | [] => none
  | c :: rest =>
    if c = quoteCh then none
    else if c ≠ backslashCh then some (utf8Encode c.toNat, rest)
    else
      match rest with
      | [] => none
      | e :: rest2 =>
        if e = 'a' then some ([7], rest2)
        else if e = 'b' then some ([8], rest2)
        else if e = 'f' then some ([12], rest2)
        else if e = 'n' then some ([10], rest2)
        else if e = 'r' then some ([13], rest2)
        else if e = 't' then some ([9], rest2)
        else if e = 'v' then some ([11], rest2)
        else if e = backslashCh then some ([92], rest2)
        else if e = quoteCh then some ([39], rest2)
        else if e = 'x' then
          match takeHexDigits 2 0 rest2 with
          | some (v, rest3) => some ([v], rest3)
          | none => none
        else if e = 'u' then
          match takeHexDigits 4 0 rest2 with
          | some (v, rest3) =>
            if (0xD800 ≤ v ∧ v < 0xE000) ∨ 0x10FFFF < v then none
            else some (utf8Encode v, rest3)
          | none => none
        else if e = 'U' then
          match takeHexDigits 8 0 rest2 with
          | some (v, rest3) =>
            if (0xD800 ≤ v ∧ v < 0xE000) ∨ 0x10FFFF < v then none
            else some (utf8Encode v, rest3)
          | none => none
        else
          match octDigitVal e, rest2 with
          | some d1, c2 :: c3 :: rest3 =>
            match octDigitVal c2, octDigitVal c3 with
            | some d2, some d3 =>
              let v := d1 * 64 + d2 * 8 + d3
              if 255 < v then none else some ([v], rest3)
            | _, _ => none
          | _, _ => none

/-- `strconv.Unquote` restricted to single-quoted literals: the text must
begin and end with a single quote, contain no raw newline, and its content
must unquote to exactly one character token. -/
def goUnquoteSingle (s : String) : Option (List Nat) :=
  let cs := s.data
  if cs.length < 2 then none
  else if cs.head? = some quoteCh ∧ cs.getLast? = some quoteCh then
    let content := (cs.drop 1).dropLast
    if content.contains newlineCh then none
    else
      match unquoteChar content with
      | some (bs, []) => some bs
      | _ => none
  else none

/-- Whitespace as skipped by the `fmt` scanner. -/
def goIsSpace (c : Char) : Bool :=
  c.toNat = 32 ∨ c.toNat = 9 ∨ c.toNat = 10 ∨ c.toNat = 13 ∨ c.toNat = 11

/-- ASCII decimal digit, as accepted by the scanner's `%d` verb. -/
def isDigitCh (c : Char) : Bool := 48 ≤ c.toNat ∧ c.toNat ≤ 57

/-- Base-10 value of a digit list. -/
def decimalVal (ds : List Char) : Nat :=
  ds.foldl (fun a c => a * 10 + (c.toNat - 48)) 0

/-- `fmt.Sscanf` with the `%d` verb: skip leading whitespace, accept an
optional sign and then a non-empty run of decimal digits; trailing
non-digit text is left unconsumed and is not an error.  The scanned token
goes through `strconv.ParseInt(tok, 10, 64)`, so a value outside the
signed 64-bit range is an out-of-range error. -/
def goScanInt (s : String) : Option Int :=
  let cs := s.data.dropWhile goIsSpace
  let (neg, cs2) :=
    match cs with
    | c :: rest => if c = '-' then (true, rest) else if c = '+' then (false, rest) else (false, cs)
    | [] => (false, cs)
  let digits := cs2.takeWhile isDigitCh
  if digits.isEmpty then none
  else
    let v : Int := Int.ofNat (decimalVal digits)
    let sv : Int := if neg then -v else v
    if sv < -9223372036854775808 ∨ 9223372036854775807 < sv then none
    else some sv

/-- `ConvertLiteralToInt`: convert a basic literal to an integer value.
`token.INT` goes through the `%d` scan; `token.CHAR` is unquoted to bytes,
whose first rune must not be `RuneError` and must span the whole byte
string; every other kind is unsupported. -/
def ConvertLiteralToInt (lit : BasicLit) : Except ConvError Int :=
  match lit.kind with
  | .int =>
    match goScanInt lit.value with
    | some v => .ok v
    | none => .error (.cannotConvertInt lit.value)
  | .char =>
    match goUnquoteSingle lit.value with
    | none => .error (.cannotParseChar lit.value)
    | some bs =>
      let rs := decodeRune bs
      if rs.1 = runeError then .error (.invalidUTF8 lit.value)
      else if rs.2 ≠ bs.length then .error (.multipleChars lit.value)
      else .ok (Int.ofNat rs.1)
  | .otherKind => .error .unsupportedLitKind

/-! ### The binary-expression evaluator -/

/-- One side of a binary expression, as `EvaluateBinaryExpr` handles it:
the identifier `iota` yields the current iota value and sets the is-iota
flag, a basic literal is converted, anything else is unsupported. -/
def evalOperand (e : Expr) (iotaVal : Int) : Except EvalError (Int × Bool) :=
  match e with
  | .identE n => if n = "iota" then .ok (iotaVal, true) else .error (.unsupportedIdent n)
  | .basicLitE l =>
    match ConvertLiteralToInt l with
    | .ok v => .ok (v, false)
    | .error e => .error (.convErr e)
  | _ => .error .unsupportedOperandType

/-- `EvaluateBinaryExpr`: evaluate `x op y` at the given iota value,
returning the value and whether iota participated.  Division by a zero
right-hand value is an error; operators outside add, sub, mul, quo are
unsupported. -/
def EvaluateBinaryExpr (x : Expr) (op : GoToken) (y : Expr) (iotaVal : Int) :
    Except EvalError (Int × Bool) :=
  match evalOperand x iotaVal with
  | .error e => .error e
  | .ok (leftVal, leftIsIota) =>
    match evalOperand y iotaVal with
    | .error e => .error e
    | .ok (rightVal, rightIsIota) =>
      let usesIota := leftIsIota || rightIsIota
      match op with
      | .add => .ok (leftVal + rightVal, usesIota)
      | .sub => .ok (leftVal - rightVal, usesIota)
      | .mul => .ok (leftVal * rightVal, usesIota)
      | .quo =>
        if rightVal = 0 then .error .divisionByZero
        else .ok (Int.tdiv leftVal rightVal, usesIota)
      | .otherTok => .error .unsupportedOperator

/-! ### The declaration-block walker -/

/-- `constExprType`: the kind of the last expression seen by the walker. -/
inductive ConstExprType where
  | exprTypeNone
  | exprTypePlain
  | exprTypeIota
  | exprTypeIotaOp
  deriving DecidableEq

/-- `iotaOperation`: a binary operation with iota, kept for replay on
subsequent declaration lines. -/
structure IotaOperation where
  op : GoToken
  operand : Int
  iotaOnLeft : Bool
  deriving DecidableEq

/-- `constParseState`: the walker state for one const block. -/
structure ConstParseState where
  iotaVal : Int
  lastExprType : ConstExprType
  lastValue : Int
  iotaOp : Option IotaOperation
  deriving DecidableEq

/-- The zero-value `&constParseState{}` a fresh block walk starts from. -/
def initState : ConstParseState :=
  { iotaVal := 0, lastExprType := .exprTypeNone, lastValue := 0, iotaOp := none }

/-- `applyIotaOperation`: replay a stored operation at a new iota value. -/
def applyIotaOperation (op : Option IotaOperation) (iotaVal : Int) : Int :=
  match op with
  | none => iotaVal
  | some o =>
    match o.op with
    | .add => iotaVal + o.operand
    | .sub => if o.iotaOnLeft then iotaVal - o.operand else o.operand - iotaVal
    | .mul => iotaVal * o.operand
    | .quo =>
      if o.operand ≠ 0 then
        if o.iotaOnLeft then Int.tdiv iotaVal o.operand
        else if iotaVal ≠ 0 then Int.tdiv o.operand iotaVal
        else 0
      else 0
    | .otherTok => iotaVal

/-- `processImplicitValue`: resolve a constant that has no explicit
expression, from the walker state alone. -/
def processImplicitValue (state : ConstParseState) : Int :=
  match state.lastExprType with
  | .exprTypeIota => state.iotaVal
  | .exprTypeIotaOp => applyIotaOperation state.iotaOp state.iotaVal
  | _ => state.lastValue

/-- Whether an expression is the identifier `iota`. -/
def isIotaIdent : Expr → Bool
  | .identE n => n = "iota"
  | _ => false

/-- The operand `processBinaryExpr` extracts from the non-iota side: the
converted literal if that side is a basic literal that converts, and the
zero value otherwise. -/
def litOperand : Expr → Int
  | .basicLitE l =>
    match ConvertLiteralToInt l with
    | .ok v => v
    | .error _ => 0
  | _ => 0

/-- `processBinaryExpr`: evaluate a binary expression and, when it uses
iota, extract the operation to be replayed on later lines.  Evaluation
errors yield `(0, none)`. -/
def processBinaryExpr (x : Expr) (op : GoToken) (y : Expr) (state : ConstParseState) :
    Int × Option IotaOperation :=
  match EvaluateBinaryExpr x op y state.iotaVal with
  | .error _ => (0, none)
  | .ok (val, usesIota) =>
    if !usesIota then (val, none)
    else
      let o : IotaOperation :=
        if isIotaIdent x then { op := op, operand := litOperand y, iotaOnLeft := true }
        else if isIotaIdent y then { op := op, operand := litOperand x, iotaOnLeft := false }
        else { op := op, operand := 0, iotaOnLeft := false }
      (val, some o)

/-- `processExplicitValue`: resolve a constant that carries an explicit
expression, updating the walker state; unrecognised shapes fall through to
the permissive value 0 with the state untouched. -/
def processExplicitValue (e : Expr) (state : ConstParseState) : Int × ConstParseState :=
  match e with
  | .identE n =>
    if n = "iota" then
      (state.iotaVal,
        { state with lastExprType := .exprTypeIota, lastValue := state.iotaVal, iotaOp := none })
    else (0, state)
  | .basicLitE l =>
    match ConvertLiteralToInt l with
    | .ok v =>
      (v, { state with lastExprType := .exprTypePlain, lastValue := v, iotaOp := none })
    | .error _ => (0, state)
  | .binaryE x op y =>
    let vo := processBinaryExpr x op y state
    if vo.2.isSome then
      (vo.1, { state with lastExprType := .exprTypeIotaOp, lastValue := vo.1, iotaOp := vo.2 })
    else if vo.1 ≠ 0 ∨ vo.2.isNone then
      (vo.1, { state with lastExprType := .exprTypePlain, lastValue := vo.1, iotaOp := none })
    else (0, state)
  | .unaryE op x =>
    if op = .sub then
      match x with
      | .basicLitE l =>
        match ConvertLiteralToInt l with
        | .ok v =>
          (-v, { state with lastExprType := .exprTypePlain, lastValue := -v, iotaOp := none })
        | .error _ => (0, state)
      | _ => (0, state)
    else (0, state)
  | .otherE => (0, state)

/-- `processConstValue`: resolve the constant at name index `index` of a
value spec: explicit when the values list has a non-nil entry there,
implicit otherwise. -/
def processConstValue (vals : List (Option Expr)) (index : Nat) (state : ConstParseState) :
    Int × ConstParseState :=
  match vals[index]? with
  | some (some e) => processExplicitValue e state
  | _ => (processImplicitValue state, state)

/-! ### The entry collector -/

/-- One name of a value spec, with its source position (`name.Pos()`). -/
structure NameNode where
  name : String
  pos : Nat
  deriving DecidableEq

/-- One spec of a const block: a value spec with its names, its (possibly
nil) value expressions and the aliases parsed from its inline comment, or
any other spec kind (e.g. an import spec), which the walker skips. -/
inductive SpecNode where
  | valueSpec (names : List NameNode) (vals : List (Option Expr)) (aliases : List String)
  | otherSpec
  deriving DecidableEq

/-- `constValue`: metadata recorded per retained constant. -/
structure ConstValue where
  value : Int
  pos : Nat
  aliases : List String
  deriving DecidableEq

/-- Go map assignment `m[k] = v`: replace the binding if the key is
present, extend otherwise. -/
def mapUpsert : List (String × ConstValue) → String → ConstValue → List (String × ConstValue)
  | [], k, v => [(k, v)]
  | (k', v') :: rest, k, v =>
    if k' = k then (k, v) :: rest else (k', v') :: mapUpsert rest k v

/-- Go map lookup. -/
def mapLookup : List (String × ConstValue) → String → Option ConstValue
  | [], _ => none
  | (k', v') :: rest, k => if k' = k then some v' else mapLookup rest k

/-- Whether `s` starts with `pre` (`strings.HasPrefix`), on char lists. -/
def isPreList : List Char → List Char → Bool
  | [], _ => true
  | _ :: _, [] => false
  | p :: ps, c :: cs => p = c ∧ isPreList ps cs

/-- `strings.HasPrefix s pre`. -/
def goHasPre (s pre : String) : Bool := isPreList pre.data s.data

/-- `strings.TrimPrefix s pre`. -/
def goTrimPre (s pre : String) : String :=
  if goHasPre s pre then String.mk (s.data.drop pre.data.length) else s

/-- The per-name loop of `parseConstBlock`: skip underscore placeholders
and names without the type prefix, resolve each retained name via
`processConstValue` and record it, threading the walker state. -/
def processNames (typ : String) (vals : List (Option Expr)) (aliases : List String) :
    List NameNode → Nat → List (String × ConstValue) → ConstParseState →
    List (String × ConstValue) × ConstParseState
  | [], _, m, st => (m, st)
  | nn :: rest, i, m, st =>
    if nn.name = "_" then processNames typ vals aliases rest (i + 1) m st
    else if !goHasPre nn.name typ then processNames typ vals aliases rest (i + 1) m st
    else
      let vs := processConstValue vals i st
      processNames typ vals aliases rest (i + 1)
        (mapUpsert m nn.name { value := vs.1, pos := nn.pos, aliases := aliases }) vs.2

/-- The per-spec step of `parseConstBlock`: non-value specs and empty name
lists are skipped without touching the state; otherwise the names are
processed and the iota value is incremented once, after the whole spec. -/
def processSpec (typ : String) (acc : List (String × ConstValue) × ConstParseState) :
    SpecNode → List (String × ConstValue) × ConstParseState
  | .otherSpec => acc
  | .valueSpec names vals aliases =>
    if names.isEmpty then acc
    else
      let ms := processNames typ vals aliases names 0 acc.1 acc.2
      (ms.1, { ms.2 with iotaVal := ms.2.iotaVal + 1 })

/-- `parseConstBlock`, with the final walker state kept for inspection. -/
def parseConstBlockFull (typ : String) (specs : List SpecNode)
    (m : List (String × ConstValue)) : List (String × ConstValue) × ConstParseState :=
  specs.foldl (processSpec typ) (m, initState)

/-- `parseConstBlock`: extract enum values from one const block, starting
from a fresh walker state. -/
def parseConstBlock (typ : String) (specs : List SpecNode)
    (m : List (String × ConstValue)) : List (String × ConstValue) :=
  (parseConstBlockFull typ specs m).1

/-- `Parse`: walk every const block of every file, then fail with the
no-entries error when nothing matched the type prefix. -/
def Parse (typ : String) (blocks : List (List SpecNode)) :
    Except GenError (List (String × ConstValue)) :=
  let m := blocks.foldl (fun acc b => parseConstBlock typ b acc) []
  if m.isEmpty then .error (.noEntriesFound typ) else .ok m

/-- Number of specs that consume an iota tick in `parseConstBlock`: the
value specs binding at least one name. -/
def countedSpecs (specs : List SpecNode) : Nat :=
  specs.countP fun s =>
    match s with
    | .valueSpec names _ _ => !names.isEmpty
    | .otherSpec => false

/-- Total number of names bound across a block, placeholders included. -/
def totalNames (specs : List SpecNode) : Nat :=
  specs.foldl
    (fun n s =>
      match s with
      | .valueSpec names _ _ => n + names.length
      | .otherSpec => n) 0

/-! ### The renderer-facing output of `Generate` -/

/-- Sort key of `Generate`: source position order. -/
def posLe (a b : String × ConstValue) : Prop := a.2.pos ≤ b.2.pos

/-- Strict source position order. -/
def posLt (a b : String × ConstValue) : Prop := a.2.pos < b.2.pos

instance : DecidableRel posLe := fun a b => Nat.decLe a.2.pos b.2.pos

instance : IsTotal (String × ConstValue) posLe := ⟨fun a b => Nat.le_total a.2.pos b.2.pos⟩

instance : IsTrans (String × ConstValue) posLe := ⟨fun _ _ _ h1 h2 => Nat.le_trans h1 h2⟩

instance : IsAntisymm (String × ConstValue) posLt :=
  ⟨fun a b h1 h2 => absurd h2 (Nat.lt_asymm h1)⟩

/-- The `sort.Slice` call of `Generate`: order the collected entries by
source position. -/
def sortEntries (entries : List (String × ConstValue)) : List (String × ConstValue) :=
  List.insertionSort posLe entries

/-- Capitalise the first character (the title caser on one identifier). -/
def upperFirst (s : String) : String :=
  match s.data with
  | [] => ""
  | c :: rest => String.mk (c.toUpper :: rest)

/-- `Value`: one enum value as handed to the template. -/
structure Value where
  PrivateName : String
  PublicName : String
  Name : String
  Index : Int
  Aliases : List String
  deriving DecidableEq

/-- The value-construction part of `Generate`: sort the collected entries
by position, then build the renderer-facing `Value` records in that
order. -/
def generateValues (typ : String) (entries : List (String × ConstValue)) : List Value :=
  (sortEntries entries).map fun e =>
    let nameNoPre := goTrimPre e.1 typ
    { PrivateName := e.1
      PublicName := upperFirst typ ++ nameNoPre
      Name := upperFirst nameNoPre
      Index := e.2.value
      Aliases := e.2.aliases }

/-- Whether an `Except` is a success. -/
def exceptOk : Except ConvError Int → Bool
  | .ok _ => true
  | .error _ => false

/-- The explicit-expression shapes that hit the permissive fallthrough of
`processExplicitValue` (return 0, state untouched): identifiers other than
iota, literals whose conversion fails, unary expressions that are not a
minus on a convertible literal, and every other node kind.  Binary
expressions are excluded: even a failing one resets the state. -/
def isFallbackShape : Expr → Bool
  | .identE n => n ≠ "iota"
  | .basicLitE l => !exceptOk (ConvertLiteralToInt l)
  | .binaryE _ _ _ => false
  | .unaryE op x =>
    match op, x with
    | .sub, .basicLitE l => !exceptOk (ConvertLiteralToInt l)
    | .sub, _ => true
    | _, _ => true
  | .otherE => true

/-! ### Concrete declaration blocks used in the theorems -/

/-- Shorthand for an integer literal expression. -/
def litE (s : String) : Expr := .basicLitE ⟨.int, s⟩

/-- The identifier `iota`. -/
def iotaE : Expr := .identE "iota"

/-- `divA = 10 / iota` at tick 0, then three expressionless continuations. -/
def c1Block : List SpecNode :=
  [ .valueSpec [⟨"divA", 1⟩] [some (.binaryE (litE "10") .quo iotaE)] []
  , .valueSpec [⟨"divB", 2⟩] [] []
  , .valueSpec [⟨"divC", 3⟩] [] []
  , .valueSpec [⟨"divD", 4⟩] [] [] ]

/-- `divA = iota`, `divB = 10 / iota` at tick 1, then two continuations. -/
def c1BlockShift : List SpecNode :=
  [ .valueSpec [⟨"divA", 1⟩] [some iotaE] []
  , .valueSpec [⟨"divB", 2⟩] [some (.binaryE (litE "10") .quo iotaE)] []
  , .valueSpec [⟨"divC", 3⟩] [] []
  , .valueSpec [⟨"divD", 4⟩] [] [] ]

/-- `subA = 100 - iota` at tick 0, then two expressionless continuations. -/
def c5Block : List SpecNode :=
  [ .valueSpec [⟨"subA", 1⟩] [some (.binaryE (litE "100") .sub iotaE)] []
  , .valueSpec [⟨"subB", 2⟩] [] []
  , .valueSpec [⟨"subC", 3⟩] [] [] ]

/-- One line binding two names with two iota expressions, then one more
line: `testA, testB = iota, iota` followed by `testC = iota`. -/
def c2Block : List SpecNode :=
  [ .valueSpec [⟨"testA", 1⟩, ⟨"testB", 2⟩] [some iotaE, some iotaE] []
  , .valueSpec [⟨"testC", 3⟩] [some iotaE] [] ]

/-- A single entry whose expression `10 / 0` fails evaluation. -/
def c3Block : List SpecNode :=
  [ .valueSpec [⟨"divX", 7⟩] [some (.binaryE (litE "10") .quo (litE "0"))] [] ]

/-! ### Claim theorems -/

/-- Claim C1, counterexample: in a block whose FIRST entry, at counter tick
0, is `10/iota` followed by expressionless continuations, the continuation
at tick 1 resolves to 0, not to 10 as the claim states: at tick 0 the
binary-expression evaluator fails with division-by-zero, so no operation is
stored and the walker records a plain value 0 that the continuations
repeat. -/
theorem c1_counterexample :
    (mapLookup (parseConstBlock "div" c1Block []) "divB").map ConstValue.value = some 0 ∧
    ¬ (mapLookup (parseConstBlock "div" c1Block []) "divB").map ConstValue.value = some 10 := by
  decide

/-- Claim C1, amended: when `10/iota` appears at counter tick 0, its
evaluation fails with division-by-zero, the walker stores the plain value 0,
and the whole block resolves to 0,0,0,0; the documented sequence 0,10,5,3
arises when `10/iota` first appears at tick 1 (after a bare-iota entry at
tick 0), in which case the stored divide operation is re-applied against
the advancing counter with truncating division. -/
theorem c1_amended_div_by_counter :
    (parseConstBlock "div" c1Block []).map (fun e => (e.1, e.2.value)) =
      [("divA", 0), ("divB", 0), ("divC", 0), ("divD", 0)] ∧
    (parseConstBlock "div" c1BlockShift []).map (fun e => (e.1, e.2.value)) =
      [("divA", 0), ("divB", 10), ("divC", 5), ("divD", 3)] := by
  decide

/-- Claim C5: `100 - iota` at tick 0 followed by two expressionless
continuations resolves to 100, 99, 98, and in general the stored
subtract-with-counter-on-the-right operation replays as operand minus
counter. -/
theorem c5_sub_counter_replay :
    (parseConstBlock "sub" c5Block []).map (fun e => (e.1, e.2.value)) =
      [("subA", 100), ("subB", 99), ("subC", 98)] ∧
    ∀ n iv : Int,
      applyIotaOperation (some { op := .sub, operand := n, iotaOnLeft := false }) iv = n - iv := by
  exact ⟨by decide, fun n iv => rfl⟩

/-- Claim C7: dividing the counter by the literal 0 fails with the
division-by-zero error at expression-evaluation time, regardless of the
current counter value. -/
theorem c7_div_by_zero_literal (iv : Int) :
    EvaluateBinaryExpr iotaE .quo (litE "0") iv = .error .divisionByZero := by
  rfl

/-- Claim C3, counterexample: the entry `divX = 10 / 0` produces a
division-by-zero expression error in the evaluator, yet the collector does
NOT surface it: `Parse` succeeds and records the entry with the fallback
value 0, contradicting the claim that expression errors abort generation
with no partial output. -/
theorem c3_counterexample :
    EvaluateBinaryExpr (litE "10") .quo (litE "0") 0 = .error .divisionByZero ∧
    Parse "div" [c3Block] = .ok [("divX", { value := 0, pos := 7, aliases := [] })] := by
  decide

/-- Claim C3, amended: expression errors are produced by the evaluator but
swallowed by the walker: a failing binary expression resolves to the
fallback value 0 and resets the stored state to a plain 0, and a failing
literal conversion resolves to 0 with the state untouched; generation
continues in both cases (the collector's only error is the no-entries
one). -/
theorem c3_errors_swallowed :
    (∀ (x : Expr) (op : GoToken) (y : Expr) (st : ConstParseState) (err : EvalError),
      EvaluateBinaryExpr x op y st.iotaVal = .error err →
        processExplicitValue (.binaryE x op y) st =
          (0, { st with lastExprType := .exprTypePlain, lastValue := 0, iotaOp := none })) ∧
    (∀ (l : BasicLit) (st : ConstParseState) (err : ConvError),
      ConvertLiteralToInt l = .error err →
        processExplicitValue (.basicLitE l) st = (0, st)) := by
  constructor
  · intro x op y st err h
    simp [processExplicitValue, processBinaryExpr, h]
  · intro l st err h
    simp [processExplicitValue, h]

/-- Claim C3, witness: the amended theorem applied to the concrete failing
binary expression `10 / 0` and the concrete failing literal `abc`. -/
theorem c3_witness :
    processExplicitValue (.binaryE (litE "10") .quo (litE "0")) initState =
      (0, { initState with lastExprType := .exprTypePlain, lastValue := 0, iotaOp := none }) ∧
    processExplicitValue (.basicLitE ⟨.int, "abc"⟩) initState = (0, initState) :=
  ⟨c3_errors_swallowed.1 (litE "10") .quo (litE "0") initState .divisionByZero (by decide),
   c3_errors_swallowed.2 ⟨.int, "abc"⟩ initState (.cannotConvertInt "abc") (by decide)⟩

/-- Claim C9: every explicit-expression shape in the permissive fallback
class (identifier other than iota, literal whose conversion fails, unary
expression that is not minus on a convertible literal, any other node kind)
resolves to 0 with the walker state unchanged, so a following
expressionless entry resolves exactly as it would from the state before the
fallback entry. -/
theorem c9_fallback_frame (e : Expr) (st : ConstParseState)
    (h : isFallbackShape e = true) :
    processExplicitValue e st = (0, st) ∧
    processImplicitValue (processExplicitValue e st).2 = processImplicitValue st := by
  have h1 : processExplicitValue e st = (0, st) := by
    cases e with
    | identE n =>
      have hn : n ≠ "iota" := by simpa [isFallbackShape] using h
      simp [processExplicitValue, hn]
    | basicLitE l =>
      cases hC : ConvertLiteralToInt l with
      | ok v => simp [isFallbackShape, hC, exceptOk] at h
      | error er => simp [processExplicitValue, hC]
    | binaryE x op y => simp [isFallbackShape] at h
    | unaryE op x =>
      cases op with
      | sub =>
        cases x with
        | basicLitE l =>
          cases hC : ConvertLiteralToInt l with
          | ok v => simp [isFallbackShape, hC, exceptOk] at h
          | error er => simp [processExplicitValue, hC]
        | identE n => simp [processExplicitValue]
        | binaryE a b c => simp [processExplicitValue]
        | unaryE a b => simp [processExplicitValue]
        | otherE => simp [processExplicitValue]
      | add => simp [processExplicitValue]
      | mul => simp [processExplicitValue]
      | quo => simp [processExplicitValue]
      | otherTok => simp [processExplicitValue]
    | otherE => rfl
  exact ⟨h1, by rw [h1]⟩

/-- Claim C9, witness: the fallback theorem at the concrete non-iota
identifier `foo` and the initial walker state. -/
theorem c9_witness :
    processExplicitValue (.identE "foo") initState = (0, initState) ∧
    processImplicitValue (processExplicitValue (.identE "foo") initState).2 =
      processImplicitValue initState :=
  c9_fallback_frame (.identE "foo") initState (by decide)

/-- Claim C10, counterexample: the expression `iota / iota`, first seen at
counter tick 1, is stored as a divide operation with the counter on the
left whose operand is 0 (the right side is not a literal, so the operand
keeps its zero value), refuting the claim that stored counter-on-left
divisions always carry a nonzero operand; replaying that operation at tick
2 lands in the division-by-zero fallback branch and yields 0. -/
theorem c10_counterexample :
    processBinaryExpr iotaE .quo iotaE { initState with iotaVal := 1 } =
      (1, some { op := .quo, operand := 0, iotaOnLeft := true }) ∧
    ({ op := .quo, operand := 0, iotaOnLeft := true } : IotaOperation).operand = 0 ∧
    applyIotaOperation (some { op := .quo, operand := 0, iotaOnLeft := true }) 2 = 0 := by
  decide

/-- Claim C10, amended: every operation the walker stores has an operator
among add, subtract, multiply and divide, and when the operator is divide
with the counter on the left AND the right-hand side is a literal, the
stored operand is nonzero (the evaluator rejected a zero divisor before the
operation was stored); the nonzero guarantee does not extend to a
counter-on-both-sides division such as `iota / iota`, whose stored operand
is 0 and whose replay reaches the fallback branch. -/
theorem c10_stored_op_safety (x : Expr) (op : GoToken) (y : Expr) (st : ConstParseState)
    (val : Int) (o : IotaOperation)
    (h : processBinaryExpr x op y st = (val, some o)) :
    (o.op = .add ∨ o.op = .sub ∨ o.op = .mul ∨ o.op = .quo) ∧
    (∀ l : BasicLit, o.op = .quo → o.iotaOnLeft = true → y = .basicLitE l →
      o.operand ≠ 0) := by
  unfold processBinaryExpr at h
  cases hE : EvaluateBinaryExpr x op y st.iotaVal with
  | error e => rw [hE] at h; simp at h
  | ok vu =>
    obtain ⟨v, u⟩ := vu
    rw [hE] at h
    cases u with
    | false => simp at h
    | true =>
      simp only [Bool.not_true, if_neg (by simp : ¬ (false = true))] at h
      obtain ⟨hval, ho⟩ := Prod.mk.injEq .. ▸ h
      have ho' := Option.some.inj ho
      have hop : o.op = op := by
        rw [← ho']
        by_cases h1 : isIotaIdent x = true
        · simp [h1]
        · by_cases h2 : isIotaIdent y = true <;> simp [h1, h2]
      have hop4 : op ≠ .otherTok := by
        intro hbad
        subst hbad
        unfold EvaluateBinaryExpr at hE
        cases h1 : evalOperand x st.iotaVal with
        | error e => rw [h1] at hE; simp at hE
        | ok p =>
          obtain ⟨lv, li⟩ := p
          rw [h1] at hE
          cases h2 : evalOperand y st.iotaVal with
          | error e => rw [h2] at hE; simp at hE
          | ok q => obtain ⟨rv, ri⟩ := q; rw [h2] at hE; simp at hE
      constructor
      · rw [hop]
        cases op with
        | add => exact Or.inl rfl
        | sub => exact Or.inr (Or.inl rfl)
        | mul => exact Or.inr (Or.inr (Or.inl rfl))
        | quo => exact Or.inr (Or.inr (Or.inr rfl))
        | otherTok => exact absurd rfl hop4
      · intro l hquo hleft hy
        subst hy
        have hopq : op = .quo := by rw [← hop, hquo]
        subst hopq
        by_cases h1 : isIotaIdent x = true
        · have hoeq : o = { op := .quo, operand := litOperand (.basicLitE l), iotaOnLeft := true } := by
            rw [← ho']; simp [h1]
          cases hC : ConvertLiteralToInt l with
          | error er =>
            exfalso
            unfold EvaluateBinaryExpr at hE
            cases h2 : evalOperand x st.iotaVal with
            | error e => rw [h2] at hE; simp at hE
            | ok p =>
              obtain ⟨lv, li⟩ := p
              rw [h2] at hE
              have h3 : evalOperand (.basicLitE l) st.iotaVal = .error (.convErr er) := by
                simp [evalOperand, hC]
              rw [h3] at hE
              simp at hE
          | ok w =>
            have hw : w ≠ 0 := by
              intro hw0
              subst hw0
              unfold EvaluateBinaryExpr at hE
              cases h2 : evalOperand x st.iotaVal with
              | error e => rw [h2] at hE; simp at hE
              | ok p =>
                obtain ⟨lv, li⟩ := p
                rw [h2] at hE
                have h3 : evalOperand (.basicLitE l) st.iotaVal = .ok (0, false) := by
                  simp [evalOperand, hC]
                rw [h3] at hE
                simp at hE
            rw [hoeq]
            simpa [litOperand, hC] using hw
        · exfalso
          rw [← ho', if_neg h1] at hleft
          simp [isIotaIdent] at hleft

/-! Helper lemmas: no step of the per-name processing touches the iota
value; only the per-spec increment does. -/

theorem processExplicitValue_iotaVal (e : Expr) (st : ConstParseState) :
    (processExplicitValue e st).2.iotaVal = st.iotaVal := by
  cases e with
  | identE n => by_cases h : n = "iota" <;> simp [processExplicitValue, h]
  | basicLitE l => cases hC : ConvertLiteralToInt l <;> simp [processExplicitValue, hC]
  | binaryE x op y =>
    simp only [processExplicitValue]
    split
    · rfl
    · split
      · rfl
      · rfl
  | unaryE op x =>
    cases op with
    | sub =>
      cases x with
      | basicLitE l => cases hC : ConvertLiteralToInt l <;> simp [processExplicitValue, hC]
      | identE n => rfl
      | binaryE a b c => rfl
      | unaryE a b => rfl
      | otherE => rfl
    | add => rfl
    | mul => rfl
    | quo => rfl
    | otherTok => rfl
  | otherE => rfl

theorem processConstValue_iotaVal (vals : List (Option Expr)) (i : Nat)
    (st : ConstParseState) : (processConstValue vals i st).2.iotaVal = st.iotaVal := by
  simp only [processConstValue]
  split
  · exact processExplicitValue_iotaVal _ _
  · rfl

theorem processNames_iotaVal (typ : String) (vals : List (Option Expr)) (aliases : List String) :
    ∀ (names : List NameNode) (i : Nat) (m : List (String × ConstValue))
      (st : ConstParseState),
      (processNames typ vals aliases names i m st).2.iotaVal = st.iotaVal := by
  intro names
  induction names with
  | nil => intro i m st; rfl
  | cons nn rest ih =>
    intro i m st
    simp only [processNames]
    split
    · exact ih _ _ _
    · split
      · exact ih _ _ _
      · exact (ih _ _ _).trans (processConstValue_iotaVal vals i st)

theorem processSpec_iotaVal (typ : String) (acc : List (String × ConstValue) × ConstParseState)
    (s : SpecNode) :
    (processSpec typ acc s).2.iotaVal =
      acc.2.iotaVal +
        (match s with
          | .valueSpec names _ _ => if names.isEmpty then 0 else 1
          | .otherSpec => 0) := by
  cases s with
  | otherSpec => simp [processSpec]
  | valueSpec names vals aliases =>
    by_cases h : names.isEmpty
    · simp [processSpec, h]
    · simp only [processSpec, if_neg h]
      rw [processNames_iotaVal]

theorem foldl_processSpec_iotaVal (typ : String) :
    ∀ (specs : List SpecNode) (acc : List (String × ConstValue) × ConstParseState),
      (specs.foldl (processSpec typ) acc).2.iotaVal =
        acc.2.iotaVal + Int.ofNat (countedSpecs specs) := by
  intro specs
  induction specs with
  | nil => intro acc; simp [countedSpecs]
  | cons s rest ih =>
    intro acc
    rw [List.foldl_cons, ih, processSpec_iotaVal]
    cases s with
    | otherSpec => simp [countedSpecs, List.countP_cons]
    | valueSpec names vals aliases =>
      by_cases h : names.isEmpty <;>
        simp [countedSpecs, List.countP_cons, h] <;> push_cast <;> ring

/-- Claim C2, counterexample: a line binding two names consumes ONE counter
tick, not two: in the block `testA, testB = iota, iota` followed by
`testC = iota`, the final counter is 2 while three names were processed,
and `testB` on the first line resolves to 0 (the same tick as `testA`),
not 1 — the counter does not advance between the names of one line. -/
theorem c2_counterexample :
    (parseConstBlockFull "test" c2Block []).2.iotaVal = 2 ∧
    totalNames c2Block = 3 ∧
    ¬ (parseConstBlockFull "test" c2Block []).2.iotaVal = Int.ofNat (totalNames c2Block) ∧
    (mapLookup (parseConstBlock "test" c2Block []) "testB").map ConstValue.value = some 0 := by
  decide

/-- Claim C2, amended: during a walk of one declaration block the counter
advances by exactly one tick per declaration line (per value spec binding
at least one name, placeholder lines included), regardless of how many
names the line binds; all names of one line are processed against the same
counter value. -/
theorem c2_counter_per_line (typ : String) (specs : List SpecNode)
    (m0 : List (String × ConstValue)) :
    (parseConstBlockFull typ specs m0).2.iotaVal = Int.ofNat (countedSpecs specs) := by
  unfold parseConstBlockFull
  rw [foldl_processSpec_iotaVal]
  simp [initState]

/-- Lookup after Go map assignment: the assigned key reads back the new
value, every other key is unaffected. -/
theorem mapLookup_upsert (m : List (String × ConstValue)) (k : String) (v : ConstValue)
    (k' : String) :
    mapLookup (mapUpsert m k v) k' = if k = k' then some v else mapLookup m k' := by
  induction m with
  | nil => simp [mapUpsert, mapLookup]
  | cons a rest ih =>
    obtain ⟨ak, av⟩ := a
    by_cases h1 : ak = k
    · subst h1
      by_cases h2 : ak = k'
      · subst h2
        simp [mapUpsert, mapLookup]
      · simp [mapUpsert, mapLookup, h2]
    · by_cases h2 : ak = k'
      · subst h2
        have h3 : ¬ k = ak := fun hh => h1 hh.symm
        simp [mapUpsert, mapLookup, h1, h3]
      · simp [mapUpsert, mapLookup, h1, h2, ih]

/-- Claim C8: the required-prefix filter is applied per name: a name is
recorded by the per-name loop of `parseConstBlock` iff it was already in
the map or it occurs on the line, is not the underscore placeholder, and
itself starts with the type prefix — independently of the other names
bound on the same line. -/
theorem c8_per_name_filter (typ : String) (vals : List (Option Expr)) (aliases : List String) :
    ∀ (names : List NameNode) (i : Nat) (m : List (String × ConstValue))
      (st : ConstParseState) (nm : String),
      (mapLookup (processNames typ vals aliases names i m st).1 nm).isSome = true ↔
        ((mapLookup m nm).isSome = true ∨
          ∃ nn ∈ names, nn.name = nm ∧ nm ≠ "_" ∧ goHasPre nm typ = true) := by
  intro names
  induction names with
  | nil => intro i m st nm; simp [processNames]
  | cons nn rest ih =>
    intro i m st nm
    have hcons : (∃ x ∈ nn :: rest, x.name = nm ∧ nm ≠ "_" ∧ goHasPre nm typ = true) ↔
        ((nn.name = nm ∧ nm ≠ "_" ∧ goHasPre nm typ = true) ∨
          ∃ x ∈ rest, x.name = nm ∧ nm ≠ "_" ∧ goHasPre nm typ = true) := by
      simp [List.mem_cons, or_and_right, exists_or, exists_eq_left]
    simp only [processNames]
    by_cases h1 : nn.name = "_"
    · rw [if_pos h1, ih, hcons]
      have hPnn : ¬ (nn.name = nm ∧ nm ≠ "_" ∧ goHasPre nm typ = true) := by
        rintro ⟨he, hne, _⟩
        exact hne (he.symm.trans h1)
      tauto
    · rw [if_neg h1]
      by_cases h2 : goHasPre nn.name typ = true
      · have h2' : ¬ (!goHasPre nn.name typ) = true := by simp [h2]
        rw [if_neg h2', ih, hcons, mapLookup_upsert]
        by_cases h3 : nn.name = nm
        · rw [if_pos h3]
          have hPnn : nn.name = nm ∧ nm ≠ "_" ∧ goHasPre nm typ = true :=
            ⟨h3, fun hh => h1 (h3.trans hh), by rw [← h3]; exact h2⟩
          simp [hPnn]
        · rw [if_neg h3]
          have hPnn : ¬ (nn.name = nm ∧ nm ≠ "_" ∧ goHasPre nm typ = true) := by
            rintro ⟨he, _, _⟩
            exact h3 he
          tauto
      · have h2f : goHasPre nn.name typ = false := by
          revert h2; cases goHasPre nn.name typ <;> simp
        have h2' : (!goHasPre nn.name typ) = true := by simp [h2f]
        rw [if_pos h2', ih, hcons]
        have hPnn : ¬ (nn.name = nm ∧ nm ≠ "_" ∧ goHasPre nm typ = true) := by
          rintro ⟨he, _, hp⟩
          rw [← he] at hp
          exact h2 hp
        tauto

/-- Claim C4: the sequence handed to the renderer is the collected entries
sorted by their recorded source position — so it is in original declaration
order, and it is the same for ANY iteration order of the unordered
name-to-value storage: permuting the entry list does not change the
generated output (positions are pairwise distinct, as source positions
are). -/
theorem c4_order_by_position (typ : String) (entries entries' : List (String × ConstValue))
    (hperm : entries.Perm entries')
    (hpos : (entries.map fun e => e.2.pos).Nodup) :
    List.Sorted posLe (sortEntries entries) ∧
    (sortEntries entries).Perm entries ∧
    generateValues typ entries = generateValues typ entries' := by
  have hs1 : List.Sorted posLe (sortEntries entries) := List.sorted_insertionSort posLe entries
  have hp1 : (sortEntries entries).Perm entries := List.perm_insertionSort posLe entries
  refine ⟨hs1, hp1, ?_⟩
  have hs2 : List.Sorted posLe (sortEntries entries') := List.sorted_insertionSort posLe entries'
  have hp2 : (sortEntries entries').Perm entries' := List.perm_insertionSort posLe entries'
  have hneP : entries.Pairwise fun a b => a.2.pos ≠ b.2.pos := List.pairwise_map.mp hpos
  have hpos' : (entries'.map fun e => e.2.pos).Nodup := (hperm.map _).nodup_iff.mp hpos
  have hneP' : entries'.Pairwise fun a b => a.2.pos ≠ b.2.pos := List.pairwise_map.mp hpos'
  have hne1 : (sortEntries entries).Pairwise fun a b => a.2.pos ≠ b.2.pos :=
    (List.Perm.pairwise_iff (fun h => Ne.symm h) hp1).mpr hneP
  have hne2 : (sortEntries entries').Pairwise fun a b => a.2.pos ≠ b.2.pos :=
    (List.Perm.pairwise_iff (fun h => Ne.symm h) hp2).mpr hneP'
  have hlt1 : List.Sorted posLt (sortEntries entries) :=
    (hs1.and hne1).imp fun h => Nat.lt_of_le_of_ne h.1 h.2
  have hlt2 : List.Sorted posLt (sortEntries entries') :=
    (hs2.and hne2).imp fun h => Nat.lt_of_le_of_ne h.1 h.2
  have heq : sortEntries entries = sortEntries entries' :=
    List.eq_of_perm_of_sorted (hp1.trans (hperm.trans hp2.symm)) hlt1 hlt2
  unfold generateValues
  rw [heq]

/-- Claim C4, witness: the order-by-position theorem at a concrete
two-entry storage read off in two different iteration orders. -/
theorem c4_witness :
    List.Sorted posLe
      (sortEntries [("statusB", ⟨1, 20, []⟩), ("statusA", ⟨0, 10, []⟩)]) ∧
    (sortEntries [("statusB", ⟨1, 20, []⟩), ("statusA", ⟨0, 10, []⟩)]).Perm
      [("statusB", ⟨1, 20, []⟩), ("statusA", ⟨0, 10, []⟩)] ∧
    generateValues "status" [("statusB", ⟨1, 20, []⟩), ("statusA", ⟨0, 10, []⟩)] =
      generateValues "status" [("statusA", ⟨0, 10, []⟩), ("statusB", ⟨1, 20, []⟩)] :=
  c4_order_by_position "status"
    [("statusB", ⟨1, 20, []⟩), ("statusA", ⟨0, 10, []⟩)]
    [("statusA", ⟨0, 10, []⟩), ("statusB", ⟨1, 20, []⟩)]
    (List.Perm.swap _ _ _) (by decide)

/-- Decoding inverts encoding on every valid Unicode scalar value, and the
reported size is the full encoding length. -/
theorem decodeRune_utf8Encode (v : Nat)
    (h : v < 0xD800 ∨ (0xDFFF < v ∧ v < 0x110000)) :
    decodeRune (utf8Encode v) = (v, (utf8Encode v).length) := by
  have hd1 : v / 64 / 64 = v / 4096 := by rw [Nat.div_div_eq_div_mul]
  have hd2 : v / 4096 / 64 = v / 262144 := by rw [Nat.div_div_eq_div_mul]
  by_cases h1 : v < 0x80
  · simp [utf8Encode, h1, decodeRune]
  · by_cases h2 : v < 0x800
    · have e1 : utf8Encode v = [0xC0 + v / 64, 0x80 + v % 64] := by
        unfold utf8Encode
        rw [if_neg h1, if_pos h2]
      rw [e1]
      simp only [decodeRune, isContByte, List.length_cons, List.length_nil]
      split_ifs <;>
        first
        | trivial
        | (simp only [Prod.mk.injEq, runeError, Nat.add_sub_cancel_left]
           exact ⟨by omega, by first | trivial | omega⟩)
    · by_cases h3 : v < 0x10000
      · have e1 : utf8Encode v = [0xE0 + v / 4096, 0x80 + v / 64 % 64, 0x80 + v % 64] := by
          unfold utf8Encode
          rw [if_neg h1, if_neg h2, if_pos h3]
        rw [e1]
        simp only [decodeRune, isContByte, List.length_cons, List.length_nil]
        split_ifs <;>
        first
        | trivial
        | (simp only [Prod.mk.injEq, runeError, Nat.add_sub_cancel_left]
           exact ⟨by omega, by first | trivial | omega⟩)
      · have e1 : utf8Encode v =
            [0xF0 + v / 262144, 0x80 + v / 4096 % 64, 0x80 + v / 64 % 64, 0x80 + v % 64] := by
          unfold utf8Encode
          rw [if_neg h1, if_neg h2, if_neg h3]
        rw [e1]
        simp only [decodeRune, isContByte, List.length_cons, List.length_nil]
        split_ifs <;>
        first
        | trivial
        | (simp only [Prod.mk.injEq, runeError, Nat.add_sub_cancel_left]
           exact ⟨by omega, by first | trivial | omega⟩)

/-- A decimal digit is not scanner whitespace. -/
theorem digit_not_space (c : Char) (h : isDigitCh c = true) : goIsSpace c = false := by
  have hp : 48 ≤ c.toNat ∧ c.toNat ≤ 57 := by simpa [isDigitCh] using h
  simp only [goIsSpace, decide_eq_false_iff_not]
  omega

/-- `takeWhile` keeps a list all of whose elements satisfy the predicate. -/
theorem takeWhile_all {p : Char → Bool} :
    ∀ l : List Char, (∀ c ∈ l, p c = true) → l.takeWhile p = l := by
  intro l
  induction l with
  | nil => intro _; rfl
  | cons a rest ih =>
    intro h
    rw [List.takeWhile_cons, if_pos (h a (List.mem_cons_self a rest)), ih]
    intro c hc
    exact h c (List.mem_cons_of_mem a hc)

/-- Claim C6, counterexample: a 20-digit decimal integer literal is a
reachable literal token whose base-10 value exceeds the signed 64-bit
range, so the scanner's `ParseInt` step fails and the converter returns a
conversion error instead of the literal's base-10 value, refuting the
claim's universal clause that every decimal integer literal resolves to
its base-10 value. -/
theorem c6_counterexample :
    ConvertLiteralToInt ⟨.int, "99999999999999999999"⟩ =
      .error (.cannotConvertInt "99999999999999999999") ∧
    ¬ ConvertLiteralToInt ⟨.int, "99999999999999999999"⟩ =
      .ok 99999999999999999999 := by
  decide

/-- Claim C6, amended: the literal converter resolves every raw
single-character literal to the code point of its single Unicode scalar
(and in particular `'A'` to 65 and the newline escape to 10), fails with a
conversion error on a two-character literal, resolves every decimal-digit
integer literal whose value fits the signed 64-bit range to its base-10
value, and fails with a conversion error on non-numeric text (and on
out-of-range values, per the counterexample). -/
theorem c6_literal_converter :
    (∀ c : Char, c ≠ backslashCh → c ≠ quoteCh → c ≠ newlineCh → c.toNat ≠ 0xFFFD →
      ConvertLiteralToInt ⟨.char, String.mk [quoteCh, c, quoteCh]⟩ =
        .ok (Int.ofNat c.toNat)) ∧
    ConvertLiteralToInt ⟨.char, String.mk [quoteCh, 'A', quoteCh]⟩ = .ok 65 ∧
    ConvertLiteralToInt ⟨.char, String.mk [quoteCh, backslashCh, 'n', quoteCh]⟩ = .ok 10 ∧
    ConvertLiteralToInt ⟨.char, String.mk [quoteCh, 'A', 'B', quoteCh]⟩ =
      .error (.cannotParseChar (String.mk [quoteCh, 'A', 'B', quoteCh])) ∧
    (∀ ds : List Char, ds ≠ [] → (∀ c ∈ ds, isDigitCh c = true) →
      decimalVal ds ≤ 9223372036854775807 →
      ConvertLiteralToInt ⟨.int, String.mk ds⟩ = .ok (Int.ofNat (decimalVal ds))) ∧
    ConvertLiteralToInt ⟨.int, "abc"⟩ = .error (.cannotConvertInt "abc") := by
  refine ⟨?_, by decide, by decide, by decide, ?_, by decide⟩
  · intro c hb hq hn hr
    have hval : c.toNat < 0xD800 ∨ (0xDFFF < c.toNat ∧ c.toNat < 0x110000) := c.valid
    have hu : unquoteChar [c] = some (utf8Encode c.toNat, []) := by
      unfold unquoteChar
      simp only []
      rw [if_neg hq, if_pos hb]
    have hnc : (newlineCh == c) = false := beq_eq_false_iff_ne.mpr (Ne.symm hn)
    have h1 : goUnquoteSingle (String.mk [quoteCh, c, quoteCh]) =
        some (utf8Encode c.toNat) := by
      simp only [goUnquoteSingle]
      rw [if_neg (by simp)]
      rw [if_pos (⟨rfl, by simp [List.getLast?]⟩ :
        [quoteCh, c, quoteCh].head? = some quoteCh ∧
          [quoteCh, c, quoteCh].getLast? = some quoteCh)]
      rw [show (List.drop 1 [quoteCh, c, quoteCh]) = [c, quoteCh] from rfl]
      rw [show ([c, quoteCh].dropLast) = [c] from rfl]
      rw [if_neg (by simp [List.contains, List.elem, hnc])]
      rw [hu]
    simp only [ConvertLiteralToInt]
    rw [h1]
    simp only []
    rw [decodeRune_utf8Encode c.toNat hval]
    rw [if_neg (by simpa [runeError] using hr)]
    rw [if_neg (by simp)]
  · intro ds hne hdig hbound
    cases ds with
    | nil => exact absurd rfl hne
    | cons a rest =>
      have ha : isDigitCh a = true := hdig a (List.mem_cons_self a rest)
      have hspace : goIsSpace a = false := digit_not_space a ha
      have hminus : ¬ a = '-' := fun hh => absurd ha (by rw [hh]; decide)
      have hplus : ¬ a = '+' := fun hh => absurd ha (by rw [hh]; decide)
      have htake : (a :: rest).takeWhile isDigitCh = a :: rest := takeWhile_all _ hdig
      simp only [ConvertLiteralToInt, goScanInt, String.mk, List.dropWhile_cons, hspace]
      simp [hminus, hplus, htake]
      split_ifs with hc
      · exact absurd hc (by omega)
      · rfl

/-- Claim C6, witness: the converter at the raw character literal for `B`
and at the two-digit integer literal `42`. -/
theorem c6_witness :
    ConvertLiteralToInt ⟨.char, String.mk [quoteCh, 'B', quoteCh]⟩ = .ok 66 ∧
    ConvertLiteralToInt ⟨.int, String.mk ['4', '2']⟩ = .ok 42 := by
  constructor
  · have h := c6_literal_converter.1 'B' (by decide) (by decide) (by decide) (by decide)
    simpa using h
  · have h := c6_literal_converter.2.2.2.2.1 ['4', '2'] (by decide) (by decide) (by decide)
    simpa using h

/-- Claim C10, witness: the amended theorem applied to the stored add
operation of `iota + 1`. -/
theorem c10_witness :
    (({ op := .add, operand := 1, iotaOnLeft := true } : IotaOperation).op = .add ∨
      ({ op := .add, operand := 1, iotaOnLeft := true } : IotaOperation).op = .sub ∨
      ({ op := .add, operand := 1, iotaOnLeft := true } : IotaOperation).op = .mul ∨
      ({ op := .add, operand := 1, iotaOnLeft := true } : IotaOperation).op = .quo) ∧
    (∀ l : BasicLit,
      ({ op := .add, operand := 1, iotaOnLeft := true } : IotaOperation).op = .quo →
      ({ op := .add, operand := 1, iotaOnLeft := true } : IotaOperation).iotaOnLeft = true →
      litE "1" = .basicLitE l →
      ({ op := .add, operand := 1, iotaOnLeft := true } : IotaOperation).operand ≠ 0) :=
  c10_stored_op_safety iotaE .add (litE "1") initState 1
    { op := .add, operand := 1, iotaOnLeft := true } (by decide)

end EnumGen
